import Mathlib

/-!
Verification of the client-side asset-loading subsystem (image load/cache/retry
engine).  The JavaScript source is shallowly embedded: strings are `List Char`
(wrapped as `String` at the interface), the JS `Map` iteration order is an
association list in insertion order, promise/event-loop behaviour of the load
coordinator is a step machine over explicit events, and JS regex global
replacement is modelled by the corresponding leftmost non-overlapping scan.
-/

namespace CONFIG

/-- Source `CONFIG.MAX_RETRIES` (retry budget of the loader). -/
def MAX_RETRIES : Nat := 3

/-- Source `CONFIG.BASE_RETRY_DELAY` in milliseconds, as a rational. -/
def BASE_RETRY_DELAY : ℚ := 1000

/-- Source `CONFIG.MAX_RETRY_DELAY` in milliseconds, as a rational. -/
def MAX_RETRY_DELAY : ℚ := 10000

/-- Source `CONFIG.PREFETCH_BATCH_SIZE`. -/
def PREFETCH_BATCH_SIZE : Nat := 3

/-- Source `CONFIG.PREFETCH_DELAY` (ms between prefetch batches). -/
def PREFETCH_DELAY : Nat := 100

/-- Source `CONFIG.MEMORY_CACHE_MAX` (memory cache capacity). -/
def MEMORY_CACHE_MAX : Nat := 50

/-- Source `CONFIG.CACHE_DURATION` (persistent-store retention, ms). -/
def CACHE_DURATION : Nat := 7 * 24 * 60 * 60 * 1000

end CONFIG

/-- Model of the JS global regex replacement `url.replace(/&amp;/g, '&')`:
leftmost, non-overlapping occurrences of `&amp;` each become `&` (the pattern
cannot overlap itself, so the scan is exact). -/
def decodeAmp : List Char → List Char
  | '&' :: 'a' :: 'm' :: 'p' :: ';' :: rest => '&' :: decodeAmp rest
  | c :: rest => c :: decodeAmp rest
  | [] => []

/-- Model of JS `String.prototype.includes`: `hasSub pat l` is true when `pat`
occurs contiguously inside `l`. -/
def hasSub (pat : List Char) (l : List Char) : Bool :=
  match l with
  | [] => pat.isEmpty
  | c :: rest => pat.isPrefixOf (c :: rest) || hasSub pat rest

/-- Model of JS `String.prototype.replace` with a string pattern: only the
first occurrence of `pat` is replaced by `rep`. -/
def replaceFirstL (pat rep : List Char) (l : List Char) : List Char :=
  match l with
  | [] => []
  | c :: rest =>
    if pat.isPrefixOf (c :: rest) then rep ++ (c :: rest).drop pat.length
    else c :: replaceFirstL pat rep rest

/-- Model of the JS global regex replacement `.replace(/\?dl=[01]/g, '')` used
on legacy share links: every leftmost non-overlapping occurrence of `?dl=0`
or `?dl=1` is deleted (a failed candidate resumes scanning one character
later, exactly as the regex engine does). -/
def stripDlQ : List Char → List Char
  | '?' :: 'd' :: 'l' :: '=' :: b :: rest =>
    if b == '0' || b == '1' then stripDlQ rest
    else '?' :: stripDlQ ('d' :: 'l' :: '=' :: b :: rest)
  | c :: rest => c :: stripDlQ rest
  | [] => []

/-- Model of the JS global regex replacement `.replace(/[?&]dl=[01]/g, '')`
used on the string-patching fallback for new share links. -/
def stripDlAny : List Char → List Char
  | c :: 'd' :: 'l' :: '=' :: b :: rest =>
    if (c == '?' || c == '&') && (b == '0' || b == '1') then stripDlAny rest
    else c :: stripDlAny ('d' :: 'l' :: '=' :: b :: rest)
  | c :: rest => c :: stripDlAny rest
  | [] => []

/-- A query parameter: name and value, both raw character lists. -/
abbrev Param := List Char × List Char

/-- Model of `URLSearchParams.delete(name)`: removes every pair with the
given name. -/
def delParam (name : List Char) (q : List Param) : List Param :=
  q.filter (fun p => !(p.1 == name))

/-- Model of `URLSearchParams.set(name, value)`: the first pair with the name
gets the new value in place, the remaining ones are removed; if the name is
absent the pair is appended. -/
def setParam (name value : List Char) : List Param → List Param
  | [] => [(name, value)]
  | (n, v) :: rest =>
    if n == name then (name, value) :: delParam name rest
    else (n, v) :: setParam name value rest

/-- Splits at the first occurrence of the separator substring, when present. -/
def splitOnceSub (sep : List Char) (l : List Char) : Option (List Char × List Char) :=
  match l with
  | [] => none
  | c :: rest =>
    if sep.isPrefixOf (c :: rest) then some ([], (c :: rest).drop sep.length)
    else
      match splitOnceSub sep rest with
      | some (a, b) => some (c :: a, b)
      | none => none

/-- Splits at the first occurrence of a separator character, when present. -/
def splitOnceChar (sep : Char) (l : List Char) : Option (List Char × List Char) :=
  match l with
  | [] => none
  | c :: rest =>
    if c == sep then some ([], rest)
    else
      match splitOnceChar sep rest with
      | some (a, b) => some (c :: a, b)
      | none => none

/-- Splits on every occurrence of a separator character. -/
def splitAllChar (sep : Char) (l : List Char) : List (List Char) :=
  match l with
  | [] => [[]]
  | c :: rest =>
    if c == sep then [] :: splitAllChar sep rest
    else
      match splitAllChar sep rest with
      | [] => [[c]]
      | a :: as => (c :: a) :: as

/-- Model of `URLSearchParams` construction from a query string: split on `&`,
skip empty segments, split each segment at the first `=` (a segment without
`=` becomes a name with empty value). -/
def parseQuery (qs : List Char) : List Param :=
  (splitAllChar '&' qs).filterMap (fun seg =>
    if seg.isEmpty then none
    else
      match splitOnceChar '=' seg with
      | some (n, v) => some (n, v)
      | none => some (seg, []))

/-- Structured URL, the fragment of the platform `URL` object used by the
normalizer: scheme, host, path and search parameters. -/
structure UrlObj where
  scheme : List Char
  host : List Char
  path : List Char
  query : List Param
deriving DecidableEq

/-- Model of `new URL(s)` for the fragment exercised by the normalizer:
absolute URLs `scheme://host/path?query` with an alphabetic scheme and a
nonempty host; inputs without a scheme separator fail (the constructor
throws), as do inputs with a fragment marker or an empty host.  Percent
encoding is out of scope: in-scope share links carry none.  An empty path
normalizes to `/` exactly as the platform object does. -/
def parseUrl (l : List Char) : Option UrlObj :=
  match splitOnceSub "://".data l with
  | none => none
  | some (scheme, rest) =>
    if scheme.isEmpty || !(scheme.all Char.isAlpha) then none
    else if rest.contains '#' then none
    else
      let host := rest.takeWhile (fun c => !(c == '/') && !(c == '?'))
      if host.isEmpty then none
      else
        let rest2 := rest.drop host.length
        let path0 := rest2.takeWhile (fun c => !(c == '?'))
        let path := if path0.isEmpty then "/".data else path0
        let query :=
          match rest2.drop path0.length with
          | _ :: qs => parseQuery qs
          | [] => []
        some { scheme := scheme, host := host, path := path, query := query }

/-- Joins search parameters back into a query string, `name=value` pairs
separated by `&`, as `URLSearchParams.toString` does for unencoded data. -/
def joinParams : List Param → List Char
  | [] => []
  | [(n, v)] => n ++ '=' :: v
  | (n, v) :: rest => n ++ '=' :: v ++ '&' :: joinParams rest

/-- Model of `URL.prototype.toString` on the modelled fragment. -/
def serializeUrl (u : UrlObj) : List Char :=
  u.scheme ++ "://".data ++ u.host ++ u.path ++
    (match u.query with
     | [] => []
     | q => '?' :: joinParams q)

/-- Embedding of `convertDropboxUrl` (source lines 92-131) on character lists:
decode HTML-escaped ampersands, return direct-host links unchanged, rewrite
new share links through the structured URL (string patching when parsing
fails), rewrite legacy share links by host replacement plus `?dl=[01]`
stripping, and otherwise return the input. -/
def convertL (url : List Char) : List Char :=
  let u := decodeAmp url
  if hasSub "dl.dropboxusercontent.com".data u then u
  else if hasSub "dropbox.com/scl/".data u then
    match parseUrl u with
    | some p =>
      serializeUrl { p with query := setParam "raw".data "1".data (delParam "dl".data p.query) }
    | none =>
      let u2 := stripDlAny u
      if hasSub "raw=1".data u2 then u2
      else u2 ++ (if u2.contains '?' then "&raw=1".data else "?raw=1".data)
  else if hasSub "dropbox.com/s/".data u then
    stripDlQ (replaceFirstL "www.dropbox.com".data "dl.dropboxusercontent.com".data u)
  else u

/-- String-level `convertDropboxUrl` for a (nonempty) string argument. -/
def convertDropboxUrl (s : String) : String :=
  ⟨convertL s.data⟩

/-- Memory cache (source `state.memoryCache`): a JS `Map` modelled as an
association list in insertion order, oldest entry first. -/
abbrev MemCache := List (String × String)

/-- Model of `Map.prototype.get`. -/
def mapGet (k : String) (c : MemCache) : Option String :=
  (c.find? (fun p => p.1 == k)).map (fun p => p.2)

/-- Model of `Map.prototype.delete`. -/
def mapDelete (k : String) (c : MemCache) : MemCache :=
  c.filter (fun p => !(p.1 == k))

/-- Model of `Map.prototype.set`: an existing key keeps its position and gets
the new value; a fresh key is appended at the most-recent end. -/
def mapSet (k v : String) : MemCache → MemCache
  | [] => [(k, v)]
  | (k1, v1) :: rest =>
    if k1 == k then (k, v) :: rest else (k1, v1) :: mapSet k v rest

/-- Embedding of `getFromMemoryCache` (source lines 305-314): on a hit the
entry is deleted and re-inserted at the most-recent end, and its value is
returned; on a miss the cache is untouched. -/
def getFromMemoryCache (c : MemCache) (url : String) : Option String × MemCache :=
  match mapGet url c with
  | some v => (some v, mapDelete url c ++ [(url, v)])
  | none => (none, c)

/-- The `while (size >= MAX)` eviction loop of `storeInMemoryCache`: evicts
the oldest entry (head) while the size is at least the capacity, returning the
remaining cache together with the revoked object URLs in eviction order.  For
capacity 0 on an empty cache the source loop would not terminate; the model
returns the empty cache there (the configured capacity is 50). -/
def evictLoop (cap : Nat) : MemCache → MemCache × List String
  | [] => ([], [])
  | (k, v) :: rest =>
    if cap ≤ rest.length + 1 then
      let out := evictLoop cap rest
      (out.1, v :: out.2)
    else ((k, v) :: rest, [])

/-- Embedding of `storeInMemoryCache` (source lines 319-329) with the capacity
`CONFIG.MEMORY_CACHE_MAX` kept as the parameter `cap`: run the eviction loop
(revoking the evicted object URLs first), then insert. -/
def storeInMemoryCache (cap : Nat) (c : MemCache) (url objectUrl : String) :
    MemCache × List String :=
  let out := evictLoop cap c
  (mapSet url objectUrl out.1, out.2)

/-- Persistent store contents: records `(url, timestamp, blob)` keyed by url. -/
abbrev IdbStore := List (String × Nat × String)

/-- Record lookup by the `url` key path. -/
def idbLookup (url : String) (s : IdbStore) : Option (Nat × String) :=
  (s.find? (fun e => e.1 == url)).map (fun e => e.2)

/-- Embedding of `initIndexedDB` (source lines 193-222): when the facility is
absent the promise resolves `null`; when opening fails the promise also
resolves `null` (it never rejects); on success it resolves the database.  The
result type `Option IdbStore` records exactly this: `none` means degraded. -/
def initIndexedDB (hasIndexedDB : Bool) (openOutcome : Except String IdbStore) :
    Option IdbStore :=
  if !hasIndexedDB then none
  else
    match openOutcome with
    | .ok s => some s
    | .error _ => none

/-- Embedding of `getFromIndexedDB` (source lines 227-250): `none` database
short-circuits to absent; otherwise a record counts as a hit only when
`now - timestamp < CONFIG.CACHE_DURATION` (truncated subtraction agrees with
the JS comparison for the in-scope case `timestamp ≤ now`, and both sides
treat a future timestamp as fresh). -/
def getFromIndexedDB (db : Option IdbStore) (now : Nat) (url : String) : Option String :=
  match db with
  | none => none
  | some s =>
    match idbLookup url s with
    | some (ts, blob) => if now - ts < CONFIG.CACHE_DURATION then some blob else none
    | none => none

/-- Model of `IDBObjectStore.put` on the `url` key path: replaces the record
with the same key, otherwise appends. -/
def idbPut (url : String) (ts : Nat) (blob : String) : IdbStore → IdbStore
  | [] => [(url, ts, blob)]
  | (u, e) :: rest =>
    if u == url then (url, ts, blob) :: rest else (u, e) :: idbPut url ts blob rest

/-- Embedding of `storeInIndexedDB` (source lines 255-270): a no-op when the
database is unavailable, otherwise a fire-and-forget put stamped `now`. -/
def storeInIndexedDB (db : Option IdbStore) (now : Nat) (url blob : String) :
    Option IdbStore :=
  match db with
  | none => none
  | some s => some (idbPut url now blob s)

/-- Embedding of `cleanupIndexedDB` (source lines 275-296): a no-op when the
database is unavailable, otherwise deletes every record whose timestamp is at
most `now - CONFIG.CACHE_DURATION`. -/
def cleanupIndexedDB (db : Option IdbStore) (now : Nat) : Option IdbStore :=
  match db with
  | none => none
  | some s => some (s.filter (fun e => decide (now - CONFIG.CACHE_DURATION < e.2.1)))

/-- Model of `URL.createObjectURL`: an injective handle constructor. -/
def mkObjectUrl (blob : String) : String := "blob:" ++ blob

/-- Outcome of the tier-consultation part of one `loadImage` call. -/
inductive TierOutcome where
  | pending
  | memHit (handle : String)
  | storeHit (handle : String)
  | network
deriving DecidableEq

/-- Result of the tier consultation: outcome, updated memory cache, number of
persistent-store reads issued and number of network fetches started. -/
structure TierResult where
  outcome : TierOutcome
  mem : MemCache
  storeReads : Nat
  fetches : Nat
deriving DecidableEq

/-- Embedding of the tier-fallback part of `loadImage` (source lines 339-371):
normalize the URL, return the pending in-flight promise when one exists,
otherwise consult the memory cache (promoting on hit), otherwise read the
persistent store (materializing an object URL from the blob and writing it
back to the memory cache on a fresh hit), otherwise start a network fetch. -/
def loadImageTiers (cap : Nat) (loading : List String) (mem : MemCache)
    (db : Option IdbStore) (now : Nat) (url : String) : TierResult :=
  let fixedUrl := convertDropboxUrl url
  if loading.contains fixedUrl then ⟨.pending, mem, 0, 0⟩
  else
    match getFromMemoryCache mem fixedUrl with
    | (some h, mem2) => ⟨.memHit h, mem2, 0, 0⟩
    | (none, _) =>
      match getFromIndexedDB db now fixedUrl with
      | some blob =>
        ⟨.storeHit (mkObjectUrl blob),
         (storeInMemoryCache cap mem fixedUrl (mkObjectUrl blob)).1, 1, 0⟩
      | none => ⟨.network, mem, 1, 1⟩

/-- Embedding of `getRetryDelay` (source lines 154-158): exponential delay
with multiplicative jitter `r ∈ [0,1)` standing for the `Math.random` sample,
capped at `CONFIG.MAX_RETRY_DELAY`. -/
def getRetryDelay (attempt : Nat) (r : ℚ) : ℚ :=
  let exponentialDelay := CONFIG.BASE_RETRY_DELAY * 2 ^ attempt
  let jitter := r * (3 / 10) * exponentialDelay
  min (exponentialDelay + jitter) CONFIG.MAX_RETRY_DELAY

/-- Observable outcome of a solo `loadImage` run whose every fetch attempt
fails: total fetches performed, the recorded FailureRecord attempt count, and
whether the key is still in `state.loading` afterwards. -/
structure FailRunOut where
  fetches : Nat
  failedAttempts : Option Nat
  loadingHasKey : Bool
deriving DecidableEq

/-- Embedding of the retry recursion of `loadImage` (source lines 402-427) for
a key whose every fetch attempt fails and that no other caller touches: an
attempt below the retry budget performs its fetch and recurses with the next
attempt number after the backoff; the final attempt performs its fetch,
records `attempts = attempt + 1` in `state.failed` and deletes the
`state.loading` entry. -/
def loadAlwaysFail (mr : Nat) (attempt : Nat) : FailRunOut :=
  if attempt < mr then
    let rest := loadAlwaysFail mr (attempt + 1)
    { rest with fetches := rest.fetches + 1 }
  else { fetches := 1, failedAttempts := some (attempt + 1), loadingHasKey := false }
termination_by mr - attempt

/-- Events the cooperative event loop can deliver for one cache key while the
memory cache and persistent store miss: a caller invokes `loadImage`, the
active network attempt settles, or a scheduled backoff timer fires. -/
inductive LoadEvent where
  | call
  | fetchOk
  | fetchFail
  | timerFire
deriving DecidableEq

/-- Per-key loader state visible to the event machine: the `state.loading`
entry, the active fetch with its attempt number, the pending backoff timer
(carrying the next attempt number), memory-cache presence, the FailureRecord,
and counters for promises created, fetches started and settlements. -/
structure KeyState where
  inFlight : Bool
  fetchActive : Bool
  attempt : Nat
  timer : Option Nat
  mem : Bool
  failedRec : Option Nat
  promises : Nat
  fetches : Nat
  settled : Nat
deriving DecidableEq

/-- Initial per-key state: nothing cached, nothing in flight. -/
def initKeyState : KeyState :=
  { inFlight := false, fetchActive := false, attempt := 0, timer := none,
    mem := false, failedRec := none, promises := 0, fetches := 0, settled := 0 }

/-- One event-loop step of `loadImage` (source lines 339-432) for a single key
with an empty persistent store.  `call`: an in-flight entry dedups the caller
onto the existing promise; a memory hit resolves immediately; otherwise a new
promise is created, registered in `state.loading`, and a fetch starts at
attempt 0.  `fetchOk`: write-back to the memory cache, clear the
FailureRecord, delete the `state.loading` entry, settle.  `fetchFail` below
the retry budget: delete the `state.loading` entry and schedule the backoff
timer without settling; at the budget: record the FailureRecord, delete the
entry, settle as failed.  `timerFire`: the scheduled `loadImage(url, a)` call
runs and chains — onto the in-flight promise if one exists, onto the memory
cache if the key appeared there, and otherwise it creates a fresh promise and
starts the next fetch. -/
def loadStep (mr : Nat) (s : KeyState) : LoadEvent → KeyState
  | .call =>
    if s.inFlight then s
    else if s.mem then s
    else
      { s with inFlight := true, fetchActive := true, attempt := 0,
               promises := s.promises + 1, fetches := s.fetches + 1 }
  | .fetchOk =>
    if s.fetchActive then
      { s with fetchActive := false, inFlight := false, mem := true,
               failedRec := none, settled := s.settled + 1 }
    else s
  | .fetchFail =>
    if s.fetchActive then
      if s.attempt < mr then
        { s with fetchActive := false, inFlight := false, timer := some (s.attempt + 1) }
      else
        { s with fetchActive := false, inFlight := false,
                 failedRec := some (s.attempt + 1), settled := s.settled + 1 }
    else s
  | .timerFire =>
    match s.timer with
    | none => s
    | some a =>
      if s.inFlight then { s with timer := none }
      else if s.mem then { s with timer := none }
      else
        { s with timer := none, inFlight := true, fetchActive := true, attempt := a,
                 promises := s.promises + 1, fetches := s.fetches + 1 }

/-- Runs the per-key event machine from the initial state. -/
def runLoad (mr : Nat) (evs : List LoadEvent) : KeyState :=
  evs.foldl (loadStep mr) initKeyState

/-- Fuel-indexed batch splitter behind `chunkBatches`. -/
def chunkGo (n : Nat) : Nat → List String → List (List String)
  | _, [] => []
  | 0, _ => []
  | fuel + 1, l => l.take n :: chunkGo n fuel (l.drop n)

/-- The batch loop of `prefetchImages` (source lines 832-850): slices of size
`n` taken at indexes 0, n, 2n, … — the fuel equals the list length, which
suffices for any `n ≥ 1`. -/
def chunkBatches (n : Nat) (l : List String) : List (List String) :=
  chunkGo n l.length l

/-- The map-and-filter stage of `prefetchImages` (source lines 808-813):
normalize every candidate, then drop the ones already in the memory cache,
already failed, or currently loading. -/
def prefetchFiltered (memKeys failedKeys loadingKeys : List String)
    (urls : List String) : List String :=
  (urls.map convertDropboxUrl).filter (fun u =>
    !(memKeys.contains u) && !(failedKeys.contains u) && !(loadingKeys.contains u))

/-- The batch plan `prefetchImages` executes: the filtered URLs split into
slices of `CONFIG.PREFETCH_BATCH_SIZE`. -/
def prefetchBatches (memKeys failedKeys loadingKeys : List String)
    (urls : List String) : List (List String) :=
  chunkBatches CONFIG.PREFETCH_BATCH_SIZE
    (prefetchFiltered memKeys failedKeys loadingKeys urls)

/-- The schedule `processNextBatch` produces: each batch is followed by a
`setTimeout(processNextBatch, CONFIG.PREFETCH_DELAY)` gap (idle-time waits can
only add to it). -/
def prefetchSchedule (memKeys failedKeys loadingKeys : List String)
    (urls : List String) : List (List String × Nat) :=
  (prefetchBatches memKeys failedKeys loadingKeys urls).map
    (fun b => (b, CONFIG.PREFETCH_DELAY))

/-- Model of `loadImage(url).catch(() => {})` inside `prefetchBatch` (source
line 827): whatever the load settles to, the prefetch-issued task resolves. -/
def prefetchIssue (r : Except String String) : Except String Unit :=
  match r with
  | .ok _ => .ok ()
  | .error _ => .ok ()

/-- JS values as the normalizer entry points can receive them. -/
inductive JSVal where
  | str (s : String)
  | num (n : Int)
  | boolV (b : Bool)
  | nullV
  | undef
  | objV
deriving DecidableEq

/-- Whether a JS value is a string (`typeof url === 'string'`). -/
def JSVal.isString : JSVal → Bool
  | .str _ => true
  | _ => false

/-- JS truthiness of the modelled values (`!url` is its negation). -/
def jsTruthy : JSVal → Bool
  | .str s => !s.isEmpty
  | .num n => !(n == 0)
  | .boolV b => b
  | .nullV => false
  | .undef => false
  | .objV => true

/-- Embedding of the `convertDropboxUrl` entry point over arbitrary JS values
(source lines 92-94): falsy or non-string inputs are returned as they are;
the function body never throws, so the result type is plain `JSVal`. -/
def convertDropboxUrlJS (v : JSVal) : JSVal :=
  if !jsTruthy v || !v.isString then v
  else
    match v with
    | .str s => .str (convertDropboxUrl s)
    | other => other

/-- Lower-cases a character list (for the case-insensitive regex parts). -/
def lowerL (l : List Char) : List Char := l.map Char.toLower

/-- Whether a character is one of the two quote characters of the src-attr
regex character class. -/
def isQuote (c : Char) : Bool := c == '"' || c == Char.ofNat 39

/-- One attempted match of `/src=["']([^"']*(?:dropbox\.com|
dropboxusercontent\.com)[^"']*)["']/i` at the head of the input: on success
returns the captured URL body and the remainder after the closing quote. -/
def trySrcMatch (l : List Char) : Option (List Char × List Char) :=
  match l with
  | s :: r :: c :: eq :: q :: rest =>
    if s.toLower == 's' && r.toLower == 'r' && c.toLower == 'c' && eq == '=' && isQuote q then
      let body := rest.takeWhile (fun ch => !isQuote ch)
      match rest.drop body.length with
      | qc :: rest2 =>
        if isQuote qc &&
            (hasSub "dropbox.com".data (lowerL body) ||
             hasSub "dropboxusercontent.com".data (lowerL body)) then
          some (body, rest2)
        else none
      | [] => none
    else none
  | _ => none

/-- Leftmost non-overlapping scan of the global src-attr replacement in
`normalizeImageUrls` (source lines 143-146): each match is rewritten to
`src="convertDropboxUrl(body)"`; the fuel equals the input length, which
bounds the number of scan steps. -/
def scanSrc (fuel : Nat) (l : List Char) : List Char :=
  match fuel, l with
  | 0, rest => rest
  | _ + 1, [] => []
  | fuel + 1, c :: rest =>
    match trySrcMatch (c :: rest) with
    | some (body, after) =>
      "src=\"".data ++ convertL body ++ ['"'] ++ scanSrc fuel after
    | none => c :: scanSrc fuel rest

/-- The string path of `normalizeImageUrls` (source lines 136-148): decode
HTML-escaped ampersands, then rewrite every matched src attribute. -/
def normalizeImageUrlsCore (s : String) : String :=
  let d := decodeAmp s.data
  ⟨scanSrc d.length d⟩

/-- Embedding of the `normalizeImageUrls` entry point over arbitrary JS values
(source lines 136-137): falsy or non-string inputs are returned as they are;
the body never throws. -/
def normalizeImageUrlsJS (v : JSVal) : JSVal :=
  if !jsTruthy v || !v.isString then v
  else
    match v with
    | .str s => .str (normalizeImageUrlsCore s)
    | other => other

/-- A memory-cache operation issued by a caller. -/
inductive CacheOp where
  | get (k : String)
  | put (k v : String)

/-- Runs a sequence of cache operations from the empty cache, with the
capacity `cap` (`CONFIG.MEMORY_CACHE_MAX` in the source). -/
def runCacheOps (cap : Nat) (ops : List CacheOp) : MemCache :=
  ops.foldl
    (fun c op =>
      match op with
      | .get k => (getFromMemoryCache c k).2
      | .put k v => (storeInMemoryCache cap c k v).1)
    []

/-- Folds a sequence of `storeInMemoryCache` insertions, accumulating the
revoked object URLs in order. -/
def putFold (cap : Nat) (start : MemCache × List String)
    (kvs : List (String × String)) : MemCache × List String :=
  kvs.foldl
    (fun acc kv =>
      ((storeInMemoryCache cap acc.1 kv.1 kv.2).1,
        acc.2 ++ (storeInMemoryCache cap acc.1 kv.1 kv.2).2))
    start

/-- The URL forms the spec's test table exercises: already-canonical links,
legacy share links with and without the leading download toggle, new share
links (absolute, with extra parameters, already raw, and scheme-less so that
structured parsing fails), and non-Dropbox inputs. -/
def testedUrlForms : List String :=
  ["https://dl.dropboxusercontent.com/s/abc123/pic.png",
   "https://www.dropbox.com/s/abc123/pic.png?dl=0",
   "https://www.dropbox.com/s/abc123/pic.png?dl=1",
   "https://www.dropbox.com/s/abc123/pic.png",
   "https://www.dropbox.com/scl/fi/abc123/pic.png?rlkey=xyz&dl=0",
   "https://www.dropbox.com/scl/fi/abc123/pic.png?rlkey=xyz&st=q&dl=1",
   "https://www.dropbox.com/scl/fi/abc123/pic.png?raw=1",
   "www.dropbox.com/scl/fi/abc123/pic.png?dl=0",
   "https://example.com/images/photo.jpg",
   "not a url at all"]

/-- Fetch-count law of the always-failing run: starting at attempt `a ≤ mr`
the loader performs `mr + 1 - a` fetches, records `mr + 1` attempts and leaves
`state.loading` without the key. -/
theorem loadAlwaysFail_spec (mr : Nat) :
    ∀ a : Nat, a ≤ mr →
      loadAlwaysFail mr a =
        { fetches := mr + 1 - a, failedAttempts := some (mr + 1), loadingHasKey := false } := by
  have key : ∀ d a : Nat, mr - a = d → a ≤ mr →
      loadAlwaysFail mr a =
        { fetches := mr + 1 - a, failedAttempts := some (mr + 1), loadingHasKey := false } := by
    intro d
    induction d with
    | zero =>
      intro a hd ha
      have haeq : a = mr := by omega
      subst haeq
      rw [loadAlwaysFail]
      simp
    | succ d ih =>
      intro a hd ha
      have halt : a < mr := by omega
      rw [loadAlwaysFail]
      simp only [halt, if_pos]
      rw [ih (a + 1) (by omega) (by omega)]
      simp only [FailRunOut.mk.injEq, and_true, true_and]
      omega
  intro a ha
  exact key (mr - a) a rfl ha

/-- C2: for a key whose every fetch attempt fails with a retryable error,
`loadImage` performs exactly `maxRetries + 1` fetch attempts in total (4 with
the default `CONFIG.MAX_RETRIES = 3`), then settles as failed, recording a
FailureRecord with that attempt count and leaving no in-flight entry for the
key. -/
theorem c2_retry_bound (mr : Nat) :
    loadAlwaysFail mr 0 =
      { fetches := mr + 1, failedAttempts := some (mr + 1), loadingHasKey := false } ∧
    loadAlwaysFail CONFIG.MAX_RETRIES 0 =
      { fetches := 4, failedAttempts := some 4, loadingHasKey := false } := by
  constructor
  · simpa using loadAlwaysFail_spec mr 0 (Nat.zero_le mr)
  · simpa using loadAlwaysFail_spec CONFIG.MAX_RETRIES 0 (Nat.zero_le _)

/-- C3: for every attempt `k` after which a retry is actually scheduled
(`k < maxRetries`, the guard at source line 406) and every jitter sample
`r ∈ [0,1)`, the scheduled backoff equals
`min(base * 2^k + r * 0.3 * base * 2^k, maxDelay)` and lies in
`[base * 2^k, min(base * 2^k * 1.3, maxDelay)]`. -/
theorem c3_backoff_delay (k : Nat) (r : ℚ) (h0 : 0 ≤ r) (h1 : r < 1)
    (hk : k < CONFIG.MAX_RETRIES) :
    getRetryDelay k r =
      min (CONFIG.BASE_RETRY_DELAY * 2 ^ k +
            r * (3 / 10) * (CONFIG.BASE_RETRY_DELAY * 2 ^ k))
        CONFIG.MAX_RETRY_DELAY ∧
    CONFIG.BASE_RETRY_DELAY * 2 ^ k ≤ getRetryDelay k r ∧
    getRetryDelay k r ≤
      min (CONFIG.BASE_RETRY_DELAY * 2 ^ k * (13 / 10)) CONFIG.MAX_RETRY_DELAY := by
  have hk3 : k < 3 := hk
  refine ⟨rfl, ?_, ?_⟩
  · interval_cases k <;>
      · simp only [getRetryDelay, CONFIG.BASE_RETRY_DELAY, CONFIG.MAX_RETRY_DELAY, le_min_iff]
        constructor <;> nlinarith
  · interval_cases k <;>
      · simp only [getRetryDelay, CONFIG.BASE_RETRY_DELAY, CONFIG.MAX_RETRY_DELAY, le_min_iff,
          min_le_iff]
        constructor
        · left; nlinarith
        · right; nlinarith

/-- Witness for `c3_backoff_delay` at `k = 0`, `r = 1/2`. -/
theorem c3_backoff_delay_witness :
    (0 : ℚ) ≤ 1 / 2 ∧ (1 / 2 : ℚ) < 1 ∧ 0 < CONFIG.MAX_RETRIES ∧
      (getRetryDelay 0 (1 / 2) =
          min (CONFIG.BASE_RETRY_DELAY * 2 ^ 0 +
                (1 / 2) * (3 / 10) * (CONFIG.BASE_RETRY_DELAY * 2 ^ 0))
            CONFIG.MAX_RETRY_DELAY ∧
        CONFIG.BASE_RETRY_DELAY * 2 ^ 0 ≤ getRetryDelay 0 (1 / 2) ∧
        getRetryDelay 0 (1 / 2) ≤
          min (CONFIG.BASE_RETRY_DELAY * 2 ^ 0 * (13 / 10)) CONFIG.MAX_RETRY_DELAY) :=
  ⟨by norm_num, by norm_num, by decide,
    c3_backoff_delay 0 (1 / 2) (by norm_num) (by norm_num) (by decide)⟩

/-- C1 counterexample: after the explicit trace [a caller starts the load, the
first fetch attempt fails with a retryable error], the `state.loading` entry
for the key is gone (`inFlight = false`) while the load has not settled (a
backoff timer for attempt 1 is pending); a second caller arriving during that
backoff window then creates a second pending promise and starts a second
network fetch sequence (`promises = 2`, `fetches = 2`) with the first load
still unsettled — contradicting the claimed invariant. -/
theorem c1_counterexample :
    (runLoad CONFIG.MAX_RETRIES [.call, .fetchFail]).inFlight = false ∧
    (runLoad CONFIG.MAX_RETRIES [.call, .fetchFail]).settled = 0 ∧
    (runLoad CONFIG.MAX_RETRIES [.call, .fetchFail]).timer = some 1 ∧
    (runLoad CONFIG.MAX_RETRIES [.call, .fetchFail, .call]).promises = 2 ∧
    (runLoad CONFIG.MAX_RETRIES [.call, .fetchFail, .call]).fetches = 2 ∧
    (runLoad CONFIG.MAX_RETRIES [.call, .fetchFail, .call]).settled = 0 := by
  decide

/-- C1 (amended): the in-flight entry exists exactly during an active attempt.
While it exists, a concurrent `load` call returns the same pending handle and
starts no new fetch; the entry is removed when the load settles (success or
final failure) but ALSO before every retry backoff delay, without settling; and
a `load` call arriving while no entry exists and the memory cache misses —
in particular during a backoff window — creates a fresh pending promise and
starts a new network fetch sequence. -/
theorem c1_amended_inflight_lifecycle (mr : Nat) (s : KeyState) :
    (s.inFlight = true → loadStep mr s .call = s) ∧
    (s.fetchActive = true → s.attempt < mr →
      (loadStep mr s .fetchFail).inFlight = false ∧
      (loadStep mr s .fetchFail).settled = s.settled ∧
      (loadStep mr s .fetchFail).timer = some (s.attempt + 1) ∧
      (loadStep mr s .fetchFail).fetches = s.fetches) ∧
    (s.fetchActive = true → ¬ s.attempt < mr →
      (loadStep mr s .fetchFail).inFlight = false ∧
      (loadStep mr s .fetchFail).settled = s.settled + 1 ∧
      (loadStep mr s .fetchFail).failedRec = some (s.attempt + 1)) ∧
    (s.fetchActive = true →
      (loadStep mr s .fetchOk).inFlight = false ∧
      (loadStep mr s .fetchOk).settled = s.settled + 1) ∧
    (s.inFlight = false → s.mem = false →
      (loadStep mr s .call).promises = s.promises + 1 ∧
      (loadStep mr s .call).fetches = s.fetches + 1 ∧
      (loadStep mr s .call).inFlight = true) := by
  refine ⟨?_, ?_, ?_, ?_, ?_⟩
  · intro h
    simp [loadStep, h]
  · intro hf ha
    simp [loadStep, hf, ha]
  · intro hf ha
    simp [loadStep, hf, ha]
  · intro hf
    simp [loadStep, hf]
  · intro h1 h2
    simp [loadStep, h1, h2]

/-- Witness for `c1_amended_inflight_lifecycle` at the state reached after
`[.call]` (an active attempt 0) and at the initial state. -/
theorem c1_amended_inflight_lifecycle_witness :
    loadStep 3 ⟨true, true, 0, none, false, none, 1, 1, 0⟩ .call =
      ⟨true, true, 0, none, false, none, 1, 1, 0⟩ ∧
    (loadStep 3 ⟨true, true, 0, none, false, none, 1, 1, 0⟩ .fetchFail).inFlight = false ∧
    (loadStep 3 initKeyState .call).promises = 1 :=
  ⟨(c1_amended_inflight_lifecycle 3 _).1 rfl,
    ((c1_amended_inflight_lifecycle 3 _).2.1 rfl (by decide)).1,
    by
      have h := (c1_amended_inflight_lifecycle 3 initKeyState).2.2.2.2 rfl rfl
      simpa [initKeyState] using h.1⟩

/-- C8: when the persistent storage facility is absent or opening it fails,
`initIndexedDB` resolves unavailable (`none`) without rejecting, and every
subsequent store operation is a silent no-op: reads report absent, writes and
the retention sweep leave the (absent) store untouched, and a `loadImage`
call simply falls through to the network path, so the system degrades to
memory-only caching with no error surfaced to load callers (none of the
modelled operations can throw). -/
theorem c8_storage_unavailable_degrades :
    (∀ o : Except String IdbStore, initIndexedDB false o = none) ∧
    (∀ e : String, initIndexedDB true (.error e) = none) ∧
    (∀ (now : Nat) (url : String), getFromIndexedDB none now url = none) ∧
    (∀ (now : Nat) (url blob : String), storeInIndexedDB none now url blob = none) ∧
    (∀ now : Nat, cleanupIndexedDB none now = none) ∧
    (∀ (cap now : Nat) (loading : List String) (mem : MemCache) (url : String),
      loading.contains (convertDropboxUrl url) = false →
      mapGet (convertDropboxUrl url) mem = none →
      (loadImageTiers cap loading mem none now url).outcome = .network) := by
  refine ⟨fun o => rfl, fun e => rfl, fun now url => rfl, fun now url blob => rfl,
    fun now => rfl, fun cap now loading mem url hload hmem => ?_⟩
  simp only [loadImageTiers, hload, Bool.false_eq_true, if_false, getFromMemoryCache, hmem,
    getFromIndexedDB]

/-- Witness for `c8_storage_unavailable_degrades`: empty loading set, empty
memory cache. -/
theorem c8_storage_unavailable_degrades_witness :
    List.contains [] (convertDropboxUrl "https://example.com/p.png") = false ∧
    mapGet (convertDropboxUrl "https://example.com/p.png") [] = none ∧
    (loadImageTiers 50 [] [] none 0 "https://example.com/p.png").outcome = .network :=
  ⟨by decide, by decide,
    c8_storage_unavailable_degrades.2.2.2.2.2 50 0 [] [] "https://example.com/p.png"
      (by decide) (by decide)⟩

/-- C10: both normalizer entry points are total over arbitrary JS values and
return every non-string input (null, undefined, numbers, booleans, objects)
unchanged; being plain functions into `JSVal`, they cannot throw. -/
theorem c10_nonstring_inputs_unchanged (v : JSVal) (h : v.isString = false) :
    convertDropboxUrlJS v = v ∧ normalizeImageUrlsJS v = v := by
  cases v <;> simp_all [convertDropboxUrlJS, normalizeImageUrlsJS, JSVal.isString]

/-- Witness for `c10_nonstring_inputs_unchanged` at `null`. -/
theorem c10_nonstring_inputs_unchanged_witness :
    JSVal.isString .nullV = false ∧
      (convertDropboxUrlJS .nullV = .nullV ∧ normalizeImageUrlsJS .nullV = .nullV) :=
  ⟨rfl, c10_nonstring_inputs_unchanged .nullV rfl⟩

/-- Batch splitting loses no element: the slices concatenate back to the
input whenever the fuel covers the list and the batch size is positive. -/
theorem chunkGo_join (n : Nat) (hn : 1 ≤ n) :
    ∀ (fuel : Nat) (l : List String), l.length ≤ fuel → (chunkGo n fuel l).flatten = l := by
  intro fuel
  induction fuel with
  | zero =>
    intro l hl
    have hnil : l = [] := List.eq_nil_of_length_eq_zero (by omega)
    subst hnil
    rfl
  | succ fuel ih =>
    intro l hl
    cases l with
    | nil => rfl
    | cons c rest =>
      simp only [chunkGo, List.flatten_cons]
      rw [ih ((c :: rest).drop n)
        (by simp only [List.length_drop, List.length_cons] at hl ⊢; omega)]
      exact List.take_append_drop n (c :: rest)

/-- Every batch is nonempty, has at most `n` elements, and draws its elements
from the input list. -/
theorem chunkGo_mem (n : Nat) (hn : 1 ≤ n) :
    ∀ (fuel : Nat) (l b : List String), b ∈ chunkGo n fuel l →
      b.length ≤ n ∧ b ≠ [] ∧ ∀ x ∈ b, x ∈ l := by
  intro fuel
  induction fuel with
  | zero =>
    intro l b hb
    cases l <;> simp [chunkGo] at hb
  | succ fuel ih =>
    intro l b hb
    cases l with
    | nil => simp [chunkGo] at hb
    | cons c rest =>
      simp only [chunkGo, List.mem_cons] at hb
      rcases hb with hb | hb
      · subst hb
        refine ⟨by simp, ?_, fun x hx => List.take_subset n (c :: rest) hx⟩
        obtain ⟨m, hm⟩ := Nat.exists_eq_add_of_le hn
        subst hm
        simp [List.take_cons]
      · obtain ⟨h1, h2, h3⟩ := ih ((c :: rest).drop n) b hb
        exact ⟨h1, h2, fun x hx => List.drop_subset n (c :: rest) (h3 x hx)⟩

/-- A list of exactly 7 elements splits into batches of sizes 3, 3, 1. -/
theorem chunk3_of_length7 (l : List String) (h : l.length = 7) :
    (chunkBatches 3 l).map List.length = [3, 3, 1] := by
  rcases l with _ | ⟨a, _ | ⟨b, _ | ⟨c, _ | ⟨d, _ | ⟨e, _ | ⟨f, _ | ⟨g, rest⟩⟩⟩⟩⟩⟩⟩ <;>
    simp_all [chunkBatches, chunkGo]

/-- C9: the prefetcher normalizes every candidate URL, keeps exactly those
not already in the memory cache, in flight, or failed, splits them into
batches of `CONFIG.PREFETCH_BATCH_SIZE` (so 7 remaining URLs give batch
sizes 3, 3, 1), spaces consecutive batches by `CONFIG.PREFETCH_DELAY`, and
wraps every issued load in a catch that swallows its failure, so a prefetch
never surfaces an error. -/
theorem c9_prefetch_batching (memKeys failedKeys loadingKeys urls : List String) :
    (prefetchBatches memKeys failedKeys loadingKeys urls).flatten =
      prefetchFiltered memKeys failedKeys loadingKeys urls ∧
    (∀ b ∈ prefetchBatches memKeys failedKeys loadingKeys urls,
      b.length ≤ CONFIG.PREFETCH_BATCH_SIZE ∧ b ≠ []) ∧
    (∀ b ∈ prefetchBatches memKeys failedKeys loadingKeys urls, ∀ u ∈ b,
      (∃ orig ∈ urls, u = convertDropboxUrl orig) ∧
      memKeys.contains u = false ∧ failedKeys.contains u = false ∧
      loadingKeys.contains u = false) ∧
    ((prefetchFiltered memKeys failedKeys loadingKeys urls).length = 7 →
      (prefetchBatches memKeys failedKeys loadingKeys urls).map List.length = [3, 3, 1]) ∧
    (∀ x ∈ prefetchSchedule memKeys failedKeys loadingKeys urls,
      x.2 = CONFIG.PREFETCH_DELAY) ∧
    (∀ r : Except String String, prefetchIssue r = .ok ()) := by
  have hmem : ∀ b ∈ prefetchBatches memKeys failedKeys loadingKeys urls, ∀ u ∈ b,
      u ∈ prefetchFiltered memKeys failedKeys loadingKeys urls := by
    intro b hb u hu
    exact ((chunkGo_mem CONFIG.PREFETCH_BATCH_SIZE (by decide) _ _ b hb).2.2) u hu
  refine ⟨?_, ?_, ?_, ?_, ?_, ?_⟩
  · exact chunkGo_join CONFIG.PREFETCH_BATCH_SIZE (by decide) _ _ le_rfl
  · intro b hb
    have := chunkGo_mem CONFIG.PREFETCH_BATCH_SIZE (by decide) _ _ b hb
    exact ⟨this.1, this.2.1⟩
  · intro b hb u hu
    have hf := hmem b hb u hu
    simp only [prefetchFiltered, List.mem_filter, List.mem_map] at hf
    obtain ⟨⟨orig, horig, rfl⟩, hpred⟩ := hf
    simp only [Bool.and_eq_true, Bool.not_eq_true'] at hpred
    exact ⟨⟨orig, horig, rfl⟩, hpred.1.1, hpred.1.2, hpred.2⟩
  · intro h7
    exact chunk3_of_length7 _ h7
  · intro x hx
    simp only [prefetchSchedule, List.mem_map] at hx
    obtain ⟨b, hb, rfl⟩ := hx
    rfl
  · intro r
    cases r <;> rfl

/-- Witness for `c9_prefetch_batching`: 8 candidate URLs of which one is
already memory-cached, leaving 7 that split 3/3/1. -/
theorem c9_prefetch_batching_witness :
    (prefetchFiltered ["u1"] [] []
        ["u1", "u2", "u3", "u4", "u5", "u6", "u7", "u8"]).length = 7 ∧
    (prefetchBatches ["u1"] [] []
        ["u1", "u2", "u3", "u4", "u5", "u6", "u7", "u8"]).map List.length = [3, 3, 1] ∧
    prefetchIssue (.error "network down") = .ok () :=
  ⟨by decide,
    (c9_prefetch_batching ["u1"] [] [] ["u1", "u2", "u3", "u4", "u5", "u6", "u7", "u8"]).2.2.2.1
      (by decide),
    (c9_prefetch_batching ["u1"] [] [] ["u1", "u2", "u3", "u4", "u5", "u6", "u7", "u8"]).2.2.2.2.2
      (.error "network down")⟩

/-- `Map.set` always leaves the inserted pair in the map. -/
theorem mem_mapSet (k v : String) : ∀ c : MemCache, (k, v) ∈ mapSet k v c := by
  intro c
  induction c with
  | nil => simp [mapSet]
  | cons p rest ih =>
    obtain ⟨k1, v1⟩ := p
    cases h : (k1 == k) <;> simp [mapSet, h, ih]

/-- C7: tier fallback order of `loadImage` for a key with no in-flight entry.
A memory-cache hit returns the cached handle with the entry promoted to
most-recently-used and performs zero persistent-store reads and zero network
fetches; a memory miss with a fresh persistent-store record materializes the
handle `mkObjectUrl blob`, writes it into the memory cache, and performs zero
network fetches. -/
theorem c7_tier_fallback (cap now : Nat) (loading : List String) (mem : MemCache)
    (db : Option IdbStore) (url : String)
    (hnl : loading.contains (convertDropboxUrl url) = false) :
    (∀ h : String, mapGet (convertDropboxUrl url) mem = some h →
      loadImageTiers cap loading mem db now url =
        ⟨.memHit h, mapDelete (convertDropboxUrl url) mem ++ [(convertDropboxUrl url, h)],
          0, 0⟩) ∧
    (mapGet (convertDropboxUrl url) mem = none →
      ∀ (s : IdbStore) (ts : Nat) (blob : String),
        db = some s →
        idbLookup (convertDropboxUrl url) s = some (ts, blob) →
        now - ts < CONFIG.CACHE_DURATION →
        (loadImageTiers cap loading mem db now url).outcome = .storeHit (mkObjectUrl blob) ∧
        (loadImageTiers cap loading mem db now url).fetches = 0 ∧
        (convertDropboxUrl url, mkObjectUrl blob) ∈
          (loadImageTiers cap loading mem db now url).mem) := by
  constructor
  · intro h hh
    simp only [loadImageTiers, hnl, Bool.false_eq_true, if_false, getFromMemoryCache, hh]
  · intro hmiss s ts blob hdb hlook hfresh
    subst hdb
    simp only [loadImageTiers, hnl, Bool.false_eq_true, if_false, getFromMemoryCache, hmiss,
      getFromIndexedDB, hlook, hfresh, if_pos, storeInMemoryCache]
    exact ⟨trivial, trivial, mem_mapSet _ _ _⟩

/-- Witness for `c7_tier_fallback`: a memory hit on a one-entry cache and a
store hit on an unavailable-memory, fresh-record store. -/
theorem c7_tier_fallback_witness :
    List.contains [] (convertDropboxUrl "m.png") = false ∧
    mapGet (convertDropboxUrl "m.png") [("m.png", "handle0")] = some "handle0" ∧
    loadImageTiers 50 [] [("m.png", "handle0")] none 0 "m.png" =
      ⟨.memHit "handle0", [("m.png", "handle0")], 0, 0⟩ ∧
    (loadImageTiers 50 [] [] (some [("s.png", 0, "B")]) 5 "s.png").outcome =
      .storeHit (mkObjectUrl "B") ∧
    ("s.png", mkObjectUrl "B") ∈
      (loadImageTiers 50 [] [] (some [("s.png", 0, "B")]) 5 "s.png").mem := by
  have h1 := (c7_tier_fallback 50 0 [] [("m.png", "handle0")] none "m.png"
    (by decide)).1 "handle0" (by decide)
  have h2 := (c7_tier_fallback 50 5 [] [] (some [("s.png", 0, "B")]) "s.png"
    (by decide)).2 (by decide) [("s.png", 0, "B")] 0 "B" rfl (by decide) (by decide)
  refine ⟨by decide, by decide, h1.trans (by decide), ?_, ?_⟩
  · have := h2.1
    simpa using this
  · have := h2.2.2
    simpa using this

/-- Below capacity the eviction loop does nothing. -/
theorem evictLoop_of_lt (cap : Nat) (c : MemCache) (h : c.length < cap) :
    evictLoop cap c = (c, []) := by
  cases c with
  | nil => rfl
  | cons p rest =>
    obtain ⟨k, v⟩ := p
    simp only [evictLoop]
    rw [if_neg (by simp only [List.length_cons] at h; omega)]

/-- The eviction loop always leaves strictly fewer than `cap` entries. -/
theorem evictLoop_length (cap : Nat) (hcap : 1 ≤ cap) :
    ∀ c : MemCache, (evictLoop cap c).1.length ≤ cap - 1 := by
  intro c
  induction c with
  | nil => simp [evictLoop]
  | cons p rest ih =>
    obtain ⟨k, v⟩ := p
    simp only [evictLoop]
    by_cases h : cap ≤ rest.length + 1
    · rw [if_pos h]
      exact ih
    · rw [if_neg h]
      simp only [List.length_cons]
      omega

/-- `Map.set` grows the map by at most one entry. -/
theorem mapSet_length (k v : String) : ∀ c : MemCache, (mapSet k v c).length ≤ c.length + 1 := by
  intro c
  induction c with
  | nil => simp [mapSet]
  | cons p rest ih =>
    obtain ⟨k1, v1⟩ := p
    cases h : (k1 == k) <;> simp only [mapSet, h, if_true, if_false, Bool.false_eq_true,
      List.length_cons] <;> omega

/-- One `put` leaves at most `cap` entries, whatever the input size. -/
theorem storeInMemoryCache_length (cap : Nat) (hcap : 1 ≤ cap) (c : MemCache) (k v : String) :
    (storeInMemoryCache cap c k v).1.length ≤ cap := by
  simp only [storeInMemoryCache]
  have h1 := evictLoop_length cap hcap c
  have h2 := mapSet_length k v (evictLoop cap c).1
  omega

/-- Deleting a present key strictly shrinks the map. -/
theorem mapDelete_length_lt (k : String) (c : MemCache) (v : String)
    (h : mapGet k c = some v) : (mapDelete k c).length < c.length := by
  simp only [mapGet, Option.map_eq_some'] at h
  obtain ⟨p, hp, hv⟩ := h
  have hmem := List.mem_of_find?_eq_some hp
  have hpred := List.find?_some hp
  refine List.length_filter_lt_length_iff_exists.mpr ⟨p, hmem, ?_⟩
  simp [hpred]

/-- A cache lookup never grows the cache. -/
theorem getFromMemoryCache_length (c : MemCache) (k : String) :
    (getFromMemoryCache c k).2.length ≤ c.length := by
  simp only [getFromMemoryCache]
  cases h : mapGet k c with
  | none => simp
  | some v =>
    have := mapDelete_length_lt k c v h
    simp only [List.length_append, List.length_cons, List.length_nil]
    omega

/-- Any operation sequence from the empty cache stays within the capacity. -/
theorem runCacheOps_length (cap : Nat) (hcap : 1 ≤ cap) (ops : List CacheOp) :
    (runCacheOps cap ops).length ≤ cap := by
  have key : ∀ (ops : List CacheOp) (c : MemCache), c.length ≤ cap →
      (ops.foldl
        (fun c op =>
          match op with
          | .get k => (getFromMemoryCache c k).2
          | .put k v => (storeInMemoryCache cap c k v).1)
        c).length ≤ cap := by
    intro ops
    induction ops with
    | nil =>
      intro c hc
      simpa using hc
    | cons op rest ih =>
      intro c hc
      simp only [List.foldl_cons]
      apply ih
      cases op with
      | get k => exact le_trans (getFromMemoryCache_length c k) hc
      | put k v => exact storeInMemoryCache_length cap hcap c k v
  simpa [runCacheOps] using key ops [] (by simp)

/-- `Map.set` of a key absent from the map appends at the most-recent end. -/
theorem mapSet_fresh (k v : String) :
    ∀ c : MemCache, (∀ p ∈ c, p.1 ≠ k) → mapSet k v c = c ++ [(k, v)] := by
  intro c
  induction c with
  | nil => intro _; rfl
  | cons p rest ih =>
    intro h
    obtain ⟨k1, v1⟩ := p
    have hk1 : k1 ≠ k := h (k1, v1) (by simp)
    simp only [mapSet, beq_eq_false_iff_ne.mpr hk1, Bool.false_eq_true, if_false,
      List.cons_append, List.cons.injEq, true_and]
    exact ih (fun p hp => h p (List.mem_cons_of_mem _ hp))

/-- Filling fresh, mutually distinct keys into a cache with room appends them
in order and evicts nothing. -/
theorem putFold_fill (cap : Nat) :
    ∀ (kvs : List (String × String)) (c : MemCache) (r : List String),
      c.length + kvs.length ≤ cap →
      (∀ p ∈ kvs, ∀ q ∈ c, q.1 ≠ p.1) →
      (kvs.map Prod.fst).Nodup →
      putFold cap (c, r) kvs = (c ++ kvs, r) := by
  intro kvs
  induction kvs with
  | nil =>
    intro c r _ _ _
    simp [putFold]
  | cons kv rest ih =>
    intro c r h1 h2 h3
    obtain ⟨k, v⟩ := kv
    simp only [List.length_cons] at h1
    have hev := evictLoop_of_lt cap c (by omega)
    have hfresh : mapSet k v c = c ++ [(k, v)] :=
      mapSet_fresh k v c (fun q hq => h2 (k, v) (by simp) q hq)
    simp only [putFold, List.foldl_cons, storeInMemoryCache, hev, hfresh]
    have step := ih (c ++ [(k, v)]) (r ++ []) (by simp; omega)
      (by
        intro p hp q hq
        rcases List.mem_append.mp hq with hq | hq
        · exact h2 p (List.mem_cons_of_mem _ hp) q hq
        · simp only [List.mem_singleton] at hq
          subst hq
          simp only [List.map_cons, List.nodup_cons] at h3
          intro hkp
          apply h3.1
          have hk : k = p.1 := hkp
          rw [hk]
          exact List.mem_map_of_mem Prod.fst hp)
      (by simp only [List.map_cons, List.nodup_cons] at h3; exact h3.2)
    simpa [putFold] using step

/-- C6: the LRU memory cache.  Inserting `cap + 1` pairwise-distinct keys into
the empty cache evicts exactly the first-inserted (least-recently-accessed)
key, revoking exactly its object URL — the eviction loop runs before the new
insertion — and leaves the remaining `cap` entries in order.  A `get` on a
present key returns its handle and promotes the entry to the most-recent end.
Any sequence of get/put operations from the empty cache leaves at most `cap`
entries. -/
theorem c6_lru_memory_cache (cap : Nat) (hcap : 1 ≤ cap) :
    (∀ (k0 v0 : String) (mid : List (String × String)) (last : String × String),
      mid.length + 1 = cap →
      ((((k0, v0) :: mid) ++ [last]).map Prod.fst).Nodup →
      putFold cap ([], []) (((k0, v0) :: mid) ++ [last]) = (mid ++ [last], [v0])) ∧
    (∀ (c : MemCache) (k v : String), mapGet k c = some v →
      (getFromMemoryCache c k).1 = some v ∧
      (getFromMemoryCache c k).2.getLast? = some (k, v)) ∧
    (∀ ops : List CacheOp, (runCacheOps cap ops).length ≤ cap) := by
  refine ⟨?_, ?_, runCacheOps_length cap hcap⟩
  · intro k0 v0 mid last hlen hnodup
    obtain ⟨kl, vl⟩ := last
    have hsplit : ∀ s : MemCache × List String,
        putFold cap s (((k0, v0) :: mid) ++ [(kl, vl)]) =
          putFold cap (putFold cap s ((k0, v0) :: mid)) [(kl, vl)] := by
      intro s
      simp [putFold, List.foldl_append]
    have hnodup2 : ((((k0, v0) :: mid).map Prod.fst) ++ [kl]).Nodup := by
      simpa using hnodup
    rw [hsplit]
    rw [putFold_fill cap ((k0, v0) :: mid) [] [] (by simp; omega) (by simp)
      (List.Nodup.of_append_left hnodup2)]
    have hmidlt : mid.length < cap := by omega
    have hev2 : evictLoop cap ((k0, v0) :: mid) = (mid, [v0]) := by
      simp only [evictLoop, evictLoop_of_lt cap mid hmidlt]
      rw [if_pos (by omega)]
    have hklfresh : ∀ p ∈ mid, p.1 ≠ kl := by
      intro p hp
      have hdisj := (List.nodup_append.mp hnodup2).2.2
      intro hpk
      exact hdisj (a := p.1)
        (by simp only [List.map_cons]; exact List.mem_cons_of_mem _ (List.mem_map_of_mem _ hp))
        (by simp [hpk])
    have hset : mapSet kl vl mid = mid ++ [(kl, vl)] := mapSet_fresh kl vl mid hklfresh
    simp [putFold, storeInMemoryCache, hev2, hset]
  · intro c k v h
    refine ⟨by simp [getFromMemoryCache, h], ?_⟩
    simp [getFromMemoryCache, h, List.getLast?_concat]

/-- Witness for `c6_lru_memory_cache` at capacity 2. -/
theorem c6_lru_memory_cache_witness :
    putFold 2 ([], []) [("k0", "v0"), ("k1", "v1"), ("k2", "v2")] =
      ([("k1", "v1"), ("k2", "v2")], ["v0"]) ∧
    (getFromMemoryCache [("a", "x"), ("b", "y")] "a").1 = some "x" ∧
    (getFromMemoryCache [("a", "x"), ("b", "y")] "a").2.getLast? = some ("a", "x") ∧
    (runCacheOps 2 [.put "a" "x", .put "b" "y", .get "a", .put "c" "z"]).length ≤ 2 := by
  have H := c6_lru_memory_cache 2 (by decide)
  refine ⟨?_, ?_, ?_, ?_⟩
  · exact H.1 "k0" "v0" [("k1", "v1")] ("k2", "v2") (by decide) (by decide)
  · exact (H.2.1 [("a", "x"), ("b", "y")] "a" "x" (by decide)).1
  · exact (H.2.1 [("a", "x"), ("b", "y")] "a" "x" (by decide)).2
  · exact H.2.2 [.put "a" "x", .put "b" "y", .get "a", .put "c" "z"]

/-- A substring of the tail is a substring of the whole. -/
theorem hasSub_append_right (pat p l : List Char) (h : hasSub pat l = true) :
    hasSub pat (p ++ l) = true := by
  induction p with
  | nil => simpa
  | cons c p' ih => simp [hasSub, ih]

/-- A nonempty pattern is a substring of itself followed by anything. -/
theorem hasSub_self_append (pat r : List Char) (hpat : pat ≠ []) :
    hasSub pat (pat ++ r) = true := by
  cases pat with
  | nil => simp at hpat
  | cons c rest =>
    have hpre : (c :: rest).isPrefixOf ((c :: rest) ++ r) = true := by
      rw [List.isPrefixOf_iff_prefix]
      exact List.prefix_append _ _
    simp [hasSub, hpre]

/-- Decoding steps over a head that does not start an `&amp;` occurrence. -/
theorem decodeAmp_cons (c : Char) (l : List Char)
    (h : "&amp;".data.isPrefixOf (c :: l) = false) :
    decodeAmp (c :: l) = c :: decodeAmp l := by
  rw [decodeAmp.eq_def]
  split
  · rename_i rest2 heq
    rw [heq] at h
    simp [List.isPrefixOf] at h
  · rename_i c2 rest2 hnc heq
    injection heq with h1 h2
    subst h1
    subst h2
    rfl
  · rename_i heq
    exact absurd heq (List.cons_ne_nil c l)

/-- A string with no HTML-escaped ampersand decodes to itself. -/
theorem decodeAmp_eq_self : ∀ l : List Char, hasSub "&amp;".data l = false → decodeAmp l = l := by
  intro l
  induction l with
  | nil => intro _; rfl
  | cons c rest ih =>
    intro h
    simp only [hasSub, Bool.or_eq_false_iff] at h
    rw [decodeAmp_cons c rest h.1, ih h.2]

/-- Stripping steps over a head other than `?`. -/
theorem stripDlQ_cons (c : Char) (l : List Char) (h : c ≠ '?') :
    stripDlQ (c :: l) = c :: stripDlQ l := by
  rw [stripDlQ.eq_def]
  split
  · rename_i b rest2 heq
    injection heq with h1 h2
    exact absurd h1 h
  · rename_i c2 rest2 hnc heq
    injection heq with h1 h2
    subst h1
    subst h2
    rfl
  · rename_i heq
    exact absurd heq (List.cons_ne_nil c l)

/-- Stripping distributes over a question-mark-free left part. -/
theorem stripDlQ_append (p r : List Char) (hp : ∀ c ∈ p, c ≠ '?') :
    stripDlQ (p ++ r) = p ++ stripDlQ r := by
  induction p with
  | nil => rfl
  | cons c p' ih =>
    rw [List.cons_append, stripDlQ_cons c _ (hp c (by simp)),
      ih (fun d hd => hp d (List.mem_cons_of_mem _ hd))]
    rfl

/-- `URLSearchParams.set` leaves the pair it sets in the parameter list. -/
theorem mem_setParam_self (name value : List Char) :
    ∀ q : List Param, (name, value) ∈ setParam name value q := by
  intro q
  induction q with
  | nil => simp [setParam]
  | cons p rest ih =>
    obtain ⟨n, v⟩ := p
    cases h : (n == name) <;> simp [setParam, h, ih]

/-- Deleting a name removes every pair carrying it. -/
theorem delParam_ne (name : List Char) (q : List Param) :
    ∀ p ∈ delParam name q, p.1 ≠ name := by
  intro p hp
  simp only [delParam, List.mem_filter, Bool.not_eq_eq_eq_not, Bool.not_true,
    beq_eq_false_iff_ne, ne_eq] at hp
  exact hp.2

/-- Setting one name preserves the absence of a different name. -/
theorem setParam_pres_ne (name other value : List Char) (hne : name ≠ other) :
    ∀ q : List Param, (∀ p ∈ q, p.1 ≠ other) →
      ∀ p ∈ setParam name value q, p.1 ≠ other := by
  intro q
  induction q with
  | nil =>
    intro _ p hp
    simp only [setParam, List.mem_singleton] at hp
    subst hp
    exact hne
  | cons pr rest ih =>
    intro hq p hp
    obtain ⟨n, v⟩ := pr
    cases h : (n == name) with
    | true =>
      simp only [setParam, h, if_true, List.mem_cons] at hp
      rcases hp with hp | hp
      · subst hp
        exact hne
      · have hmem : p ∈ rest := List.mem_of_mem_filter hp
        exact hq p (List.mem_cons_of_mem _ hmem)
    | false =>
      simp only [setParam, h, Bool.false_eq_true, if_false, List.mem_cons] at hp
      rcases hp with hp | hp
      · subst hp
        exact hq (n, v) (by simp)
      · exact ih (fun p2 hp2 => hq p2 (List.mem_cons_of_mem _ hp2)) p hp

/-- C4 counterexample: for the legacy-share URL
`https://www.dropbox.com/s/a/p.png?x=1&dl=0` (host `www.dropbox.com`, path
under `/s/`, download toggle as the second query parameter) the normalizer
rewrites the host but leaves `&dl=0` in place, because the stripping regex
only matches `?dl=[01]` — contradicting "strips the download toggle (dl)
parameter wherever it appears". -/
theorem c4_counterexample :
    convertDropboxUrl "https://www.dropbox.com/s/a/p.png?x=1&dl=0" =
      "https://dl.dropboxusercontent.com/s/a/p.png?x=1&dl=0" ∧
    hasSub "&dl=0".data
      (convertDropboxUrl "https://www.dropbox.com/s/a/p.png?x=1&dl=0").data = true := by
  decide

/-- C4 (amended): (i) a legacy-share URL `https://www.dropbox.com/s/…` (not
containing the direct host, a new-share marker, or an escaped ampersand) is
rewritten to the direct-content host with the download toggle stripped only
where it occurs as `?dl=0`/`?dl=1` immediately after a question mark; (ii) a
new-share URL that structured parsing accepts keeps its host, has `raw`
forced to `1`, and carries no `dl` parameter; (iii) a URL already on the
direct-download host and free of escaped ampersands is returned unchanged. -/
theorem c4_amended_normalizer :
    (∀ r : List Char,
      hasSub "&amp;".data ("https://www.dropbox.com/s/".data ++ r) = false →
      hasSub "dl.dropboxusercontent.com".data ("https://www.dropbox.com/s/".data ++ r) = false →
      hasSub "dropbox.com/scl/".data ("https://www.dropbox.com/s/".data ++ r) = false →
      convertL ("https://www.dropbox.com/s/".data ++ r) =
        "https://dl.dropboxusercontent.com/s/".data ++ stripDlQ r) ∧
    (∀ (u : List Char) (p : UrlObj),
      hasSub "&amp;".data u = false →
      hasSub "dl.dropboxusercontent.com".data u = false →
      hasSub "dropbox.com/scl/".data u = true →
      parseUrl u = some p →
      convertL u =
        serializeUrl
          { p with query := setParam "raw".data "1".data (delParam "dl".data p.query) } ∧
      UrlObj.host
          { p with query := setParam "raw".data "1".data (delParam "dl".data p.query) } =
        p.host ∧
      ("raw".data, "1".data) ∈ setParam "raw".data "1".data (delParam "dl".data p.query) ∧
      (∀ pr ∈ setParam "raw".data "1".data (delParam "dl".data p.query),
        pr.1 ≠ "dl".data)) ∧
    (∀ u : List Char,
      hasSub "&amp;".data u = false →
      hasSub "dl.dropboxusercontent.com".data u = true →
      convertL u = u) := by
  refine ⟨?_, ?_, ?_⟩
  · intro r hamp hdirect hscl
    have hdec := decodeAmp_eq_self _ hamp
    have hlegacy : hasSub "dropbox.com/s/".data
        ("https://www.dropbox.com/s/".data ++ r) = true := by
      rw [show "https://www.dropbox.com/s/".data =
        "https://www.".data ++ "dropbox.com/s/".data by decide, List.append_assoc]
      exact hasSub_append_right _ _ _ (hasSub_self_append _ _ (by decide))
    have hrep : replaceFirstL "www.dropbox.com".data "dl.dropboxusercontent.com".data
        ("https://www.dropbox.com/s/".data ++ r) =
        "https://dl.dropboxusercontent.com/s/".data ++ r := rfl
    have hstrip : stripDlQ ("https://dl.dropboxusercontent.com/s/".data ++ r) =
        "https://dl.dropboxusercontent.com/s/".data ++ stripDlQ r :=
      stripDlQ_append _ _ (by decide)
    simp only [convertL, hdec, hdirect, hscl, hlegacy, Bool.false_eq_true, if_false,
      if_true, hrep, hstrip]
  · intro u p hamp hdirect hscl hparse
    have hdec := decodeAmp_eq_self _ hamp
    refine ⟨?_, rfl, mem_setParam_self _ _ _,
      setParam_pres_ne "raw".data "dl".data "1".data (by decide) _
        (delParam_ne "dl".data p.query)⟩
    simp only [convertL, hdec, hdirect, hscl, hparse, Bool.false_eq_true, if_false, if_true]
  · intro u hamp hdirect
    have hdec := decodeAmp_eq_self _ hamp
    simp only [convertL, hdec, hdirect, if_true]

/-- Witness for `c4_amended_normalizer`: one legacy-share tail, one parsed
new-share URL, one direct-host URL. -/
theorem c4_amended_normalizer_witness :
    convertL ("https://www.dropbox.com/s/".data ++ "abc/p.png?dl=0".data) =
      "https://dl.dropboxusercontent.com/s/".data ++ stripDlQ "abc/p.png?dl=0".data ∧
    convertL "https://www.dropbox.com/scl/fi/a/p.png?dl=0".data =
      serializeUrl ⟨"https".data, "www.dropbox.com".data, "/scl/fi/a/p.png".data,
        [("raw".data, "1".data)]⟩ ∧
    ("dl".data, "0".data) ∉
      setParam "raw".data "1".data (delParam "dl".data [("dl".data, "0".data)]) ∧
    convertL "https://dl.dropboxusercontent.com/s/x.png".data =
      "https://dl.dropboxusercontent.com/s/x.png".data := by
  have h1 := c4_amended_normalizer.1 "abc/p.png?dl=0".data (by decide) (by decide) (by decide)
  have h2 := c4_amended_normalizer.2.1 "https://www.dropbox.com/scl/fi/a/p.png?dl=0".data
    ⟨"https".data, "www.dropbox.com".data, "/scl/fi/a/p.png".data,
      [("dl".data, "0".data)]⟩
    (by decide) (by decide) (by decide) (by decide)
  have h3 := c4_amended_normalizer.2.2 "https://dl.dropboxusercontent.com/s/x.png".data
    (by decide) (by decide)
  refine ⟨h1, ?_, ?_, h3⟩
  · exact h2.1.trans (by decide)
  · intro hmem
    exact (h2.2.2.2 ("dl".data, "0".data) hmem) rfl

/-- C5 counterexample: the normalizer is not idempotent on all strings — for
`https://www.dropbox.com/s/a&amp;amp;b/p.png` the first pass decodes
`&amp;amp;` to `&amp;` and rewrites the host, and the second pass decodes the
surviving `&amp;` again, producing a different string. -/
theorem c5_counterexample :
    convertDropboxUrl (convertDropboxUrl "https://www.dropbox.com/s/a&amp;amp;b/p.png") ≠
      convertDropboxUrl "https://www.dropbox.com/s/a&amp;amp;b/p.png" := by
  decide

/-- C5 (amended): the normalizer is idempotent on the spec's tested URL forms
(already-canonical, legacy share, new share parsed or string-patched, and
non-Dropbox inputs), though not on arbitrary strings: inputs whose decoding
leaves a fresh `&amp;` (those containing `&amp;amp;`) are decoded further by a
second application. -/
theorem c5_amended_idempotent_on_tested (u : String) (h : u ∈ testedUrlForms) :
    convertDropboxUrl (convertDropboxUrl u) = convertDropboxUrl u := by
  fin_cases h <;> decide

/-- Witness for `c5_amended_idempotent_on_tested` at the legacy-share form. -/
theorem c5_amended_idempotent_on_tested_witness :
    "https://www.dropbox.com/s/abc123/pic.png?dl=0" ∈ testedUrlForms ∧
    convertDropboxUrl (convertDropboxUrl "https://www.dropbox.com/s/abc123/pic.png?dl=0") =
      convertDropboxUrl "https://www.dropbox.com/s/abc123/pic.png?dl=0" :=
  ⟨by decide, c5_amended_idempotent_on_tested _ (by decide)⟩
